import Mathlib

/-!
# tcpchat relay server: a shallow embedding of `src/s.cpp`

The server keeps one table `ServerContext.clients` from socket descriptors to
`ClientInfo` records.  Worker threads run `handle_read_event` and
`handle_write_event`; every access to the table happens under
`clients_mutex`, so each locked region is embedded as one atomic function on
the table.  Data returned by `read`/`write` system calls is supplied as an
explicit argument.  Calls that act only on the kernel's epoll object
(`modify_fd_in_epoll`, `remove_fd_from_epoll`) and `close` do not touch the
table and are left out of the state.

`std::string` values are byte strings, embedded as `List Byte`.
-/

namespace TcpChat

/-! ## Byte strings -/

/-- One `char` of a `std::string`, as its unsigned value. -/
abbrev Byte := Nat

/-- The byte `':'`. -/
abbrev colon : Byte := 58
/-- The byte `'\n'`. -/
abbrev newline : Byte := 10
/-- The byte `'\r'`. -/
abbrev carriage_return : Byte := 13
/-- The byte `'+'`. -/
abbrev plus_sign : Byte := 43
/-- The byte `'-'`. -/
abbrev minus_sign : Byte := 45

/-- Index of the first occurrence of `c` in `s`; `none` is `std::string::npos`. -/
def find_first (s : List Byte) (c : Byte) : Option Nat :=
  match s with
  | [] => none
  | x :: xs => if x = c then some 0 else (find_first xs c).map (· + 1)

/-- The call `s.find(c, pos)`: first occurrence of `c` at index `pos` or later. -/
def find (s : List Byte) (c : Byte) (pos : Nat) : Option Nat :=
  (find_first (s.drop pos) c).map (· + pos)

/-- The call `s.substr(pos, len)` for `pos ≤ s.size()`. -/
def substr (s : List Byte) (pos len : Nat) : List Byte :=
  (s.drop pos).take len

/-- The call `s.substr(pos)` for `pos ≤ s.size()`. -/
def substr_from (s : List Byte) (pos : Nat) : List Byte :=
  s.drop pos

/-- The call `s.erase(0, n)`: removes `min n s.size()` bytes from the front. -/
def erase_front (s : List Byte) (n : Nat) : List Byte :=
  s.drop n

/-- The predicate `isspace` of the "C" locale. -/
def isspace (c : Byte) : Bool :=
  c == 32 || (9 ≤ c && c ≤ 13)

/-- The predicate `isdigit`. -/
def isdigit (c : Byte) : Bool :=
  48 ≤ c && c ≤ 57

/-- Accumulation of decimal digits, most significant first, as `strtol` does. -/
def accumulate_digits (ds : List Byte) : Nat :=
  ds.foldl (fun acc d => acc * 10 + (d - 48)) 0

/-- Splits an optional sign off the front: `(negative, rest)`. -/
def split_sign (s : List Byte) : Bool × List Byte :=
  match s with
  | c :: r => if c = minus_sign then (true, r) else if c = plus_sign then (false, r) else (false, s)
  | [] => (false, [])

/-- The library call `std::stoi(s)` (base 10, no position argument), after the
C++ standard: `strtol` skips leading white space, reads an optional sign and
the longest run of decimal digits, and ignores whatever follows.  `none`
stands for a thrown exception: `std::invalid_argument` when there is no digit
to convert, `std::out_of_range` when the value does not fit an `int`. -/
def stoi (s : List Byte) : Option Int :=
  let body := split_sign (s.dropWhile isspace)
  let ds := body.2.takeWhile isdigit
  if ds = [] then none
  else
    let v : Int := if body.1 then -(accumulate_digits ds : Int) else (accumulate_digits ds : Int)
    if -2147483648 ≤ v ∧ v ≤ 2147483647 then some v else none

/-- The function `parse_message` (s.cpp 191-204).  `some (target_ip,
target_port, msg_content)` stands for `true` with the three out-parameters,
`none` for `false`. -/
def parse_message (raw_buf : List Byte) : Option (List Byte × Int × List Byte) :=
  match find raw_buf colon 0 with
  | none => none
  | some first_colon =>
    match find raw_buf colon (first_colon + 1) with
    | none => none
    | some second_colon =>
      let target_ip := substr raw_buf 0 first_colon
      match stoi (substr raw_buf (first_colon + 1) (second_colon - first_colon - 1)) with
      | none => none
      | some target_port =>
        let msg_content := substr_from raw_buf (second_colon + 1)
        some (target_ip, target_port, msg_content)

/-! ## The connection table -/

/-- The struct `ClientInfo` (s.cpp 53-58). -/
structure ClientInfo where
  ip : List Byte
  port : Int
  read_buf : List Byte
  write_buf : List Byte
deriving DecidableEq

/-- A value-initialised `ClientInfo`, as `operator[]` inserts for a new key. -/
def ClientInfo.fresh : ClientInfo :=
  { ip := [], port := 0, read_buf := [], write_buf := [] }

/-- The member `clients` of `ServerContext`: the entries of the
`std::unordered_map<int, ClientInfo>` in its iteration order. -/
abbrev ClientMap := List (Int × ClientInfo)

/-- The struct `ServerContext` (s.cpp 61-65); the mutex is represented by
running each locked region as one function. -/
structure ServerContext where
  epoll_fd : Int
  clients : ClientMap
deriving DecidableEq

/-- The call `clients.count(fd)`, as a truth value. -/
def count (m : ClientMap) (fd : Int) : Bool :=
  m.any (fun pair => pair.1 == fd)

/-- The entry that `clients.at(fd)` / `clients.find(fd)` refers to. -/
def lookup (m : ClientMap) (fd : Int) : Option ClientInfo :=
  match m with
  | [] => none
  | pair :: rest => if pair.1 = fd then some pair.2 else lookup rest fd

/-- Mutation of the entry with key `fd` (the one `lookup` finds) through a
reference to it. -/
def update (m : ClientMap) (fd : Int) (f : ClientInfo → ClientInfo) : ClientMap :=
  match m with
  | [] => []
  | pair :: rest =>
    if pair.1 = fd then (pair.1, f pair.2) :: rest else pair :: update rest fd f

/-- Mutation through `clients[fd]`: `operator[]` first inserts a
value-initialised entry when the key is absent. -/
def index_update (m : ClientMap) (fd : Int) (f : ClientInfo → ClientInfo) : ClientMap :=
  if count m fd then update m fd f else m ++ [(fd, f ClientInfo.fresh)]

/-- The call `clients.erase(fd)`. -/
def erase (m : ClientMap) (fd : Int) : ClientMap :=
  m.filter (fun pair => pair.1 != fd)

/-- The statement `write_buf += text` on one entry. -/
def append_write (text : List Byte) (client : ClientInfo) : ClientInfo :=
  { client with write_buf := client.write_buf ++ text }

/-- The statement `read_buf.append(buffer, n)` on one entry. -/
def append_read (chunk : List Byte) (client : ClientInfo) : ClientInfo :=
  { client with read_buf := client.read_buf ++ chunk }

/-- Assignment to `read_buf` of one entry. -/
def set_read_buf (buf : List Byte) (client : ClientInfo) : ClientInfo :=
  { client with read_buf := buf }

/-- Assignment to `write_buf` of one entry. -/
def set_write_buf (buf : List Byte) (client : ClientInfo) : ClientInfo :=
  { client with write_buf := buf }

/-- The function `disconnect_client` (s.cpp 180-190), on the table. -/
def disconnect_client (context : ServerContext) (fd : Int) : ServerContext :=
  if count context.clients fd then
    { context with clients := erase context.clients fd }
  else context

/-! ## Read path -/

/-- The literal "无效的消息格式. 请使用: IP:PORT:MESSAGE\n" (s.cpp 284), UTF-8. -/
def invalid_format_text : List Byte :=
  [230, 151, 160, 230, 149, 136, 231, 154, 132, 230, 182, 136, 230, 129, 175, 230, 160, 188,
   229, 188, 143, 46, 32, 232, 175, 183, 228, 189, 191, 231, 148, 168, 58, 32, 73, 80, 58, 80,
   79, 82, 84, 58, 77, 69, 83, 83, 65, 71, 69, 10]

/-- The literal "目标客户端未找到\n" (s.cpp 301), UTF-8. -/
def not_found_text : List Byte :=
  [231, 155, 174, 230, 160, 135, 229, 174, 162, 230, 136, 183, 231, 171, 175, 230, 156, 170,
   230, 137, 190, 229, 136, 176, 10]

/-- The scan of s.cpp 289-295: the key of the first entry, in iteration
order, whose `ip` and `port` equal the target; `-1` when there is none. -/
def scan_target (m : ClientMap) (target_ip : List Byte) (target_port : Int) : Int :=
  match m with
  | [] => -1
  | pair :: rest =>
    if pair.2.ip = target_ip ∧ pair.2.port = target_port then pair.1
    else scan_target rest target_ip target_port

/-- Step d of the frame loop (s.cpp 280-303): parse one non-empty frame
received on `fd` and route it. -/
def route_message (context : ServerContext) (fd : Int) (message : List Byte) : ServerContext :=
  match parse_message message with
  | none =>
    { context with clients := index_update context.clients fd (append_write invalid_format_text) }
  | some (target_ip, target_port, msg_content) =>
    let target_fd := scan_target context.clients target_ip target_port
    if target_fd ≠ -1 ∧ count context.clients target_fd = true then
      { context with clients := index_update context.clients target_fd (append_write msg_content) }
    else
      { context with clients := index_update context.clients fd (append_write not_found_text) }

/-- Step c (s.cpp 271-273): drop one trailing carriage return. -/
def strip_carriage_return (message : List Byte) : List Byte :=
  if message ≠ [] ∧ message.getLast? = some carriage_return then message.dropLast else message

/-- The body of the frame loop after a line has been cut off the read buffer
(s.cpp 270-303): returns the table and the frame handed to `parse_message`,
if any. -/
def process_line (context : ServerContext) (fd : Int) (line : List Byte) :
    ServerContext × Option (List Byte) :=
  let message := strip_carriage_return line
  if message = [] then (context, none)
  else (route_message context fd message, some message)

/-- The loop of s.cpp 264-304 on the read buffer of `fd`.  Returns the table
and the lines it extracted from the buffer (the values of `message` at
s.cpp 266), in order.  `none` only when the fuel runs out, or when
`clients.at(fd)` has no entry to refer to. -/
def frame_loop : Nat → ServerContext → Int → Option (ServerContext × List (List Byte))
  | 0, _, _ => none
  | fuel + 1, context, fd =>
    match lookup context.clients fd with
    | none => none
    | some client =>
      match find client.read_buf newline 0 with
      | none => some (context, [])
      | some pos =>
        let line := substr client.read_buf 0 pos
        let context1 : ServerContext :=
          { context with
            clients := update context.clients fd (set_read_buf (erase_front client.read_buf (pos + 1))) }
        let step := process_line context1 fd line
        (frame_loop fuel step.1 fd).map (fun r => (r.1, line :: r.2))

/-- Length of the read buffer of `fd` (zero when `fd` has no entry). -/
def read_buf_length (context : ServerContext) (fd : Int) : Nat :=
  match lookup context.clients fd with
  | none => 0
  | some client => client.read_buf.length

/-- Part 2 of `handle_read_event` (s.cpp 259-306): the locked region that
processes every complete line of the read buffer of `fd`. -/
def process_frames (context : ServerContext) (fd : Int) :
    Option (ServerContext × List (List Byte)) :=
  if count context.clients fd then
    frame_loop (read_buf_length context fd + 1) context fd
  else some (context, [])

/-- One successful `read` (s.cpp 239-245): the bytes are appended to the read
buffer of `fd` if `fd` still has an entry. -/
def store_chunk (context : ServerContext) (fd : Int) (chunk : List Byte) : ServerContext :=
  if count context.clients fd then
    { context with clients := index_update context.clients fd (append_read chunk) }
  else context

/-- What one call of `read` returns: `bytes chunk` is `n = chunk.length`
bytes of data, the other two are `n < 0` with and without
`EAGAIN`/`EWOULDBLOCK`. -/
inductive ReadResult where
  | bytes (chunk : List Byte)
  | would_block
  | failure
deriving DecidableEq

/-- Part 1 of `handle_read_event` (s.cpp 237-256): returns the table and the
flag `connection_closed`.  A script that ends is read as would-block. -/
def drain (context : ServerContext) (fd : Int) : List ReadResult → ServerContext × Bool
  | [] => (context, false)
  | ReadResult.bytes chunk :: rest =>
    if chunk.length > 0 then drain (store_chunk context fd chunk) fd rest
    else (context, true)
  | ReadResult.would_block :: _ => (context, false)
  | ReadResult.failure :: _ => (context, true)

/-- The function `handle_read_event` (s.cpp 232-312), with the results of its
`read` calls given as `reads`; also returns the lines it extracted. -/
def handle_read_event (context : ServerContext) (fd : Int) (reads : List ReadResult) :
    Option (ServerContext × List (List Byte)) :=
  let drained := drain context fd reads
  (process_frames drained.1 fd).map
    (fun r => (if drained.2 then disconnect_client r.1 fd else r.1, r.2))

/-- The framer on its own: append `data` to the read buffer of `fd`, then
process every complete line (s.cpp 243 followed by 259-306). -/
def feed (context : ServerContext) (fd : Int) (data : List Byte) :
    Option (ServerContext × List (List Byte)) :=
  process_frames (store_chunk context fd data) fd

/-! ## Write path -/

/-- What one call of `write` returns: `sent n` is the return value `n ≥ 0`,
the other two are `n < 0` with and without `EAGAIN`/`EWOULDBLOCK`. -/
inductive WriteResult where
  | sent (n : Nat)
  | would_block
  | failure
deriving DecidableEq

/-- The loop of s.cpp 324-334 on the snapshot: `some rest` is the unsent rest
of the snapshot when the loop ends, `none` is the error exit that
disconnects.  A script that ends is read as would-block. -/
def write_loop : List Byte → List WriteResult → Option (List Byte)
  | write_buf_copy, [] => some write_buf_copy
  | write_buf_copy, result :: rest =>
    if write_buf_copy = [] then some write_buf_copy
    else
      match result with
      | WriteResult.sent n =>
        if n > 0 then write_loop (erase_front write_buf_copy n) rest else none
      | WriteResult.would_block => some write_buf_copy
      | WriteResult.failure => none

/-- The count `original_buf.length() - write_buf_copy.length()` of s.cpp 338,
in `size_t` arithmetic. -/
def trim_count (original_length copy_length : Nat) : Nat :=
  (original_length + 2 ^ 64 - copy_length % 2 ^ 64) % 2 ^ 64

/-- The statement of s.cpp 338 on the live buffer. -/
def trim_live (original_buf write_buf_copy : List Byte) : List Byte :=
  erase_front original_buf (trim_count original_buf.length write_buf_copy.length)

/-- The locked region of s.cpp 335-343. -/
def write_complete (context : ServerContext) (fd : Int) (write_buf_copy : List Byte) :
    ServerContext :=
  if count context.clients fd then
    { context with
      clients := update context.clients fd (fun client =>
        set_write_buf (trim_live client.write_buf write_buf_copy) client) }
  else context

/-- The function `handle_write_event` (s.cpp 314-344).  `results` are the
results of its `write` calls; `during` is what other tasks do to the table
while this task holds no lock (between s.cpp 322 and 335). -/
def handle_write_event (context : ServerContext) (fd : Int) (results : List WriteResult)
    (during : ServerContext → ServerContext) : ServerContext :=
  match lookup context.clients fd with
  | none => context
  | some client =>
    let write_buf_copy := client.write_buf
    if write_buf_copy = [] then context
    else
      match write_loop write_buf_copy results with
      | none => disconnect_client (during context) fd
      | some rest => write_complete (during context) fd rest

/-! ## Worker pool -/

/-- A queued task: `ReadTask` or `WriteTask` for a descriptor. -/
inductive Task where
  | read (fd : Int)
  | write (fd : Int)
deriving DecidableEq

/-- The members `stop_` and `task_queue_` of `ThreadPool`. -/
structure PoolState where
  stop_ : Bool
  task_queue_ : List Task
deriving DecidableEq

/-- The method `add_task` (s.cpp 125-130). -/
def add_task (pool : PoolState) (task : Task) : PoolState :=
  { pool with task_queue_ := pool.task_queue_ ++ [task] }

/-- The locked region of the destructor (s.cpp 113-117). -/
def request_stop (pool : PoolState) : PoolState :=
  { pool with stop_ := true }

/-- What one pass through the body of `worker_loop` does. -/
inductive WorkerStep where
  | wait
  | leave
  | execute (task : Task) (pool : PoolState)
deriving DecidableEq

/-- One pass through the body of `ThreadPool::worker_loop` (s.cpp 137-153),
whose locked region is atomic: wait on the condition, return, or take the
front task and execute it. -/
def worker_step (pool : PoolState) : WorkerStep :=
  if !pool.stop_ && pool.task_queue_.isEmpty then WorkerStep.wait
  else if pool.stop_ && pool.task_queue_.isEmpty then WorkerStep.leave
  else
    match pool.task_queue_ with
    | [] => WorkerStep.leave
    | task :: rest => WorkerStep.execute task { pool with task_queue_ := rest }

/-- The method `ThreadPool::worker_loop` (s.cpp 135-155) run while no other
thread changes the pool: the tasks executed, in order, and the pool when the
worker returns (`true`) or blocks on the condition (`false`); `none` when the
fuel runs out. -/
def worker_loop : Nat → PoolState → Option (List Task × PoolState × Bool)
  | 0, _ => none
  | fuel + 1, pool =>
    match worker_step pool with
    | WorkerStep.wait => some ([], pool, false)
    | WorkerStep.leave => some ([], pool, true)
    | WorkerStep.execute task pool1 =>
      (worker_loop fuel pool1).map (fun r => (task :: r.1, r.2))

/-! ## Vocabulary of the wire format, used to state properties -/

/-- Base-10 value of a digit string, through `Nat.ofDigits`. -/
def decimal_value (digits : List Byte) : Nat :=
  Nat.ofDigits 10 ((digits.map (fun d => d - 48)).reverse)

/-- The frame text `ip:digits:payload`. -/
def frame_of (ip digits payload : List Byte) : List Byte :=
  ip ++ colon :: (digits ++ colon :: payload)

/-- Number of colons in a frame. -/
def colon_count (frame : List Byte) : Nat :=
  frame.count colon

/-- Text strictly between the first colon and the next one (or the end). -/
def port_field (frame : List Byte) : List Byte :=
  ((frame.dropWhile (fun b => b != colon)).drop 1).takeWhile (fun b => b != colon)

/-- A base-10 integer numeral: an optional sign, then one or more decimal
digits, and nothing else. -/
def is_integer_numeral (s : List Byte) : Bool :=
  let body := split_sign s
  body.2 != [] && body.2.all isdigit

/-- A text that starts, after optional white space, with an optional sign
followed by at least one decimal digit; anything may follow the digits. -/
def starts_with_numeral (s : List Byte) : Bool :=
  match (split_sign (s.dropWhile isspace)).2 with
  | d :: _ => isdigit d
  | [] => false

/-- The invariant of the table: as in any `std::unordered_map` the keys are
pairwise distinct, and every key is a descriptor returned by a successful
`accept` (s.cpp 209-223), hence not negative. -/
def valid_table (m : ClientMap) : Prop :=
  (m.map Prod.fst).Nodup ∧ ∀ pair ∈ m, 0 ≤ pair.1

/-- Exactly one connection, the one with key `D`, has peer address `(ip, port)`. -/
def sole_peer (m : ClientMap) (D : Int) (ip : List Byte) (port : Int) : Prop :=
  (lookup m D).map (fun d => (d.ip, d.port)) = some (ip, port) ∧
  ∀ pair ∈ m, pair.2.ip = ip → pair.2.port = port → pair.1 = D

/-- No connection has peer address `(ip, port)`. -/
def no_peer (m : ClientMap) (ip : List Byte) (port : Int) : Prop :=
  ∀ pair ∈ m, ¬ (pair.2.ip = ip ∧ pair.2.port = port)

/-- A string of decimal digits, not empty, whose value fits a 32-bit signed int. -/
def port_digits (digits : List Byte) : Prop :=
  digits ≠ [] ∧ (∀ d ∈ digits, isdigit d = true) ∧ decimal_value digits ≤ 2147483647

/-- One frame-processing step of an interleaving: the sender's descriptor,
the digits of the port field and the payload of its frame. -/
structure RoutedFrame where
  sender : Int
  digits : List Byte
  payload : List Byte

/-- Frame-processing steps for frames addressed to `ip`, run one after the
other in the order in which they take the table lock. -/
def route_all (context : ServerContext) (ip : List Byte) (steps : List RoutedFrame) :
    ServerContext :=
  steps.foldl
    (fun c step => route_message c step.sender
      (ip ++ [colon] ++ step.digits ++ [colon] ++ step.payload))
    context

/-- The text `127.0.0.1`. -/
def loopback : List Byte := [49, 50, 55, 46, 48, 46, 48, 46, 49]

/-- A table with two connections: descriptor 5 at `127.0.0.1:9000`, with the
byte `x` waiting in its write buffer, and descriptor 6 at `127.0.0.1:9001`. -/
def sample_context : ServerContext :=
  { epoll_fd := 3,
    clients :=
      [(5, { ip := loopback, port := 9000, read_buf := [], write_buf := [120] }),
       (6, { ip := loopback, port := 9001, read_buf := [], write_buf := [] })] }

/-- A line with one trailing carriage return removed when it ends in one, and
the line itself otherwise; written from the description of a frame, not from
the code. -/
def without_trailing_cr (line : List Byte) : List Byte :=
  match line.reverse with
  | c :: r => if c = carriage_return then r.reverse else line
  | [] => line

/-- A table whose descriptor 6 has the bytes `\r`, `\n`, `a` in its read
buffer, next to descriptor 5 at `127.0.0.1:9000`. -/
def sample_context_with_input : ServerContext :=
  { epoll_fd := 3,
    clients :=
      [(5, { ip := loopback, port := 9000, read_buf := [], write_buf := [120] }),
       (6, { ip := loopback, port := 9001, read_buf := [13, 10, 97], write_buf := [] })] }

/-! ## Lemmas on byte strings and `parse_message` -/

theorem find_first_none_of_not_mem (s : List Byte) (c : Byte) (h : c ∉ s) :
    find_first s c = none := by
  induction s with
  | nil => rfl
  | cons x xs ih =>
    have hx : x ≠ c := fun e => h (by simp [e])
    have hxs : c ∉ xs := fun e => h (by simp [e])
    simp [find_first, hx, ih hxs]

theorem find_first_append (a b : List Byte) (c : Byte) (h : c ∉ a) :
    find_first (a ++ c :: b) c = some a.length := by
  induction a with
  | nil => simp [find_first]
  | cons x xs ih =>
    have hx : x ≠ c := fun e => h (by simp [e])
    have hxs : c ∉ xs := fun e => h (by simp [e])
    simp [find_first, hx, ih hxs]

theorem split_at_first (s : List Byte) (c : Byte) :
    c ∉ s ∨ ∃ a b, s = a ++ c :: b ∧ c ∉ a := by
  induction s with
  | nil => left; simp
  | cons x xs ih =>
    by_cases hx : x = c
    · right; exact ⟨[], xs, by simp [hx], by simp⟩
    · rcases ih with h | ⟨a, b, hab, ha⟩
      · left; simp [hx, h]; exact fun e => hx e.symm
      · right; refine ⟨x :: a, b, by simp [hab], ?_⟩
        simp [ha]; exact fun e => hx e.symm

theorem drop_length_add (a l : List Byte) (k : Nat) :
    List.drop (a.length + k) (a ++ l) = List.drop k l := by
  induction a with
  | nil => simp
  | cons x xs ih =>
    have e : (x :: xs).length + k = (xs.length + k) + 1 := by simp; omega
    rw [e]; simp [ih]

theorem parse_message_no_colon (s : List Byte) (h : colon ∉ s) : parse_message s = none := by
  simp [parse_message, find, find_first_none_of_not_mem s colon h]

theorem parse_message_one_colon (a b : List Byte) (ha : colon ∉ a) (hb : colon ∉ b) :
    parse_message (a ++ colon :: b) = none := by
  simp [parse_message, find, find_first_append a b colon ha,
    find_first_none_of_not_mem b colon hb]

theorem parse_message_two_colons (a b r : List Byte) (ha : colon ∉ a) (hb : colon ∉ b) :
    parse_message (a ++ colon :: (b ++ colon :: r)) =
      (stoi b).map (fun target_port => (a, target_port, r)) := by
  have h1 : find (a ++ colon :: (b ++ colon :: r)) colon 0 = some a.length := by
    simp [find, find_first_append a _ colon ha]
  have h2 : find (a ++ colon :: (b ++ colon :: r)) colon (a.length + 1) =
      some (a.length + 1 + b.length) := by
    have : List.drop (a.length + 1) (a ++ colon :: (b ++ colon :: r)) = b ++ colon :: r := by
      rw [drop_length_add]; rfl
    simp [find, this, find_first_append b r colon hb]
    omega
  have h3 : substr (a ++ colon :: (b ++ colon :: r)) 0 a.length = a := by
    simp [substr]
  have h4 : substr (a ++ colon :: (b ++ colon :: r)) (a.length + 1)
      (a.length + 1 + b.length - a.length - 1) = b := by
    have e : a.length + 1 + b.length - a.length - 1 = b.length := by omega
    rw [e]; unfold substr; rw [drop_length_add]; simp
  have h5 : substr_from (a ++ colon :: (b ++ colon :: r)) (a.length + 1 + b.length + 1) = r := by
    have e : a.length + 1 + b.length + 1 = a.length + (1 + (b.length + 1)) := by omega
    rw [e]; unfold substr_from; rw [drop_length_add]
    have e2 : 1 + (b.length + 1) = (b.length + 1) + 1 := by omega
    rw [e2, List.drop_succ_cons]
    simp
  simp only [parse_message, h1, h2, h3, h4, h5]
  cases stoi b <;> rfl

theorem foldl_digits (ds : List Byte) (acc : Nat) :
    ds.foldl (fun acc d => acc * 10 + (d - 48)) acc =
      acc * 10 ^ ds.length + Nat.ofDigits 10 ((ds.map (fun d => d - 48)).reverse) := by
  induction ds generalizing acc with
  | nil => simp
  | cons d ds ih =>
    simp only [List.foldl_cons, List.map_cons, List.reverse_cons, List.length_cons]
    rw [ih, Nat.ofDigits_append, Nat.ofDigits_singleton]
    simp only [List.length_reverse, List.length_map]
    ring

theorem accumulate_digits_eq (ds : List Byte) : accumulate_digits ds = decimal_value ds := by
  simp [accumulate_digits, decimal_value, foldl_digits]

theorem takeWhile_all (p : Byte → Bool) (l : List Byte) (h : ∀ x ∈ l, p x = true) :
    l.takeWhile p = l := by
  induction l with
  | nil => rfl
  | cons x xs ih =>
    have hx : p x = true := h x (by simp)
    simp [List.takeWhile_cons, hx, ih (fun y hy => h y (by simp [hy]))]

theorem stoi_digits (digits : List Nat) (hne : digits ≠ [])
    (hd : ∀ d ∈ digits, isdigit d = true) (hfit : decimal_value digits ≤ 2147483647) :
    stoi digits = some (decimal_value digits : Int) := by
  obtain ⟨d, ds, rfl⟩ := List.exists_cons_of_ne_nil hne
  have hd0 : isdigit d = true := hd d (by simp)
  have hd1 : 48 ≤ d ∧ d ≤ 57 := by simpa [isdigit] using hd0
  have hsp : isspace d = false := by
    simp [isspace]; simp only [Byte] at *; omega
  have h1 : List.dropWhile isspace (d :: ds) = d :: ds := by
    simp [List.dropWhile_cons, hsp]
  have h2 : split_sign (d :: ds) = (false, d :: ds) := by
    have hm : d ≠ minus_sign := by simp only [Byte, minus_sign] at *; omega
    have hp : d ≠ plus_sign := by simp only [Byte, plus_sign] at *; omega
    simp [split_sign, hm, hp]
  have h3 : List.takeWhile isdigit (d :: ds) = d :: ds := takeWhile_all _ _ hd
  have h4 : (-2147483648 : Int) ≤ (decimal_value (d :: ds) : Int) ∧
      (decimal_value (d :: ds) : Int) ≤ 2147483647 := by
    constructor
    · have : (0 : Int) ≤ (decimal_value (d :: ds) : Int) := Int.natCast_nonneg _
      omega
    · exact_mod_cast hfit
  simp only [stoi, h1, h2, h3, accumulate_digits_eq]
  simp [h4]

theorem digits_no_colon (digits : List Byte) (hd : ∀ d ∈ digits, isdigit d = true) :
    colon ∉ digits := by
  intro h
  have := hd colon h
  simp [isdigit, colon] at this

theorem parse_message_frame_of (ip digits payload : List Byte) (hip : colon ∉ ip)
    (hne : digits ≠ []) (hd : ∀ d ∈ digits, isdigit d = true)
    (hfit : decimal_value digits ≤ 2147483647) :
    parse_message (frame_of ip digits payload) =
      some (ip, (decimal_value digits : Int), payload) := by
  unfold frame_of
  rw [parse_message_two_colons ip digits payload hip (digits_no_colon digits hd),
    stoi_digits digits hne hd hfit]
  rfl

theorem stoi_none_of_not_numeral (s : List Byte) (h : starts_with_numeral s = false) :
    stoi s = none := by
  unfold starts_with_numeral at h
  have ht : List.takeWhile isdigit (split_sign (List.dropWhile isspace s)).2 = [] := by
    cases hb : (split_sign (List.dropWhile isspace s)).2 with
    | nil => rfl
    | cons d r =>
      rw [hb] at h
      simp only at h
      simp [List.takeWhile_cons, h]
  simp only [stoi, ht, if_true]

theorem dropWhile_to_colon (a rest : List Byte) (ha : colon ∉ a) :
    List.dropWhile (fun b => b != colon) (a ++ colon :: rest) = colon :: rest := by
  induction a with
  | nil => simp [List.dropWhile_cons]
  | cons x xs ih =>
    have hx : x ≠ colon := fun e => ha (by simp [e])
    have hxs : colon ∉ xs := fun e => ha (by simp [e])
    simp [List.dropWhile_cons, hx, ih hxs]

theorem takeWhile_to_colon (b rest : List Byte) (hb : colon ∉ b) :
    List.takeWhile (fun x => x != colon) (b ++ colon :: rest) = b := by
  induction b with
  | nil => simp [List.takeWhile_cons]
  | cons x xs ih =>
    have hx : x ≠ colon := fun e => hb (by simp [e])
    have hxs : colon ∉ xs := fun e => hb (by simp [e])
    simp [List.takeWhile_cons, hx, ih hxs]

theorem port_field_two_colons (a b r : List Byte) (ha : colon ∉ a) (hb : colon ∉ b) :
    port_field (a ++ colon :: (b ++ colon :: r)) = b := by
  unfold port_field
  rw [dropWhile_to_colon a _ ha]
  simpa using takeWhile_to_colon b r hb

theorem colon_count_two_colons (a b r : List Byte) :
    2 ≤ colon_count (a ++ colon :: (b ++ colon :: r)) := by
  simp only [colon_count, List.count_append, List.count_cons_self]
  omega

theorem parse_message_none_of_stoi_failure (frame : List Byte)
    (h : colon_count frame < 2 ∨ stoi (port_field frame) = none) :
    parse_message frame = none := by
  rcases split_at_first frame colon with h0 | ⟨a, rest, rfl, ha⟩
  · exact parse_message_no_colon frame h0
  · rcases split_at_first rest colon with h1 | ⟨b, r, rfl, hb⟩
    · exact parse_message_one_colon a rest ha h1
    · rw [parse_message_two_colons a b r ha hb]
      rcases h with h | h
      · have := colon_count_two_colons a b r
        omega
      · rw [port_field_two_colons a b r ha hb] at h
        simp [h]

/-- C6: a frame `ip:digits:payload` whose `ip` has no colon and whose `digits`
is a non-empty string of decimal digits with a value that fits a 32-bit signed
int makes `parse_message` return true with `target_ip = ip`, `target_port`
the base-10 value of `digits`, and `msg_content = payload` verbatim, whatever
bytes (further colons included) the payload holds. -/
theorem parse_message_success (ip digits payload : List Byte)
    (hip : colon ∉ ip) (hne : digits ≠ []) (hd : ∀ d ∈ digits, isdigit d = true)
    (hfit : decimal_value digits ≤ 2147483647) :
    parse_message (ip ++ [colon] ++ digits ++ [colon] ++ payload) =
      some (ip, (decimal_value digits : Int), payload) := by
  have e : ip ++ [colon] ++ digits ++ [colon] ++ payload = frame_of ip digits payload := by
    simp [frame_of]
  rw [e]
  exact parse_message_frame_of ip digits payload hip hne hd hfit

/-- Witness for C6: the frame `127.0.0.1:9000:a:b` parses to
`("127.0.0.1", 9000, "a:b")`. -/
theorem parse_message_success_witness :
    parse_message ([49, 50, 55, 46, 48, 46, 48, 46, 49] ++ [colon] ++ [57, 48, 48, 48] ++ [colon]
        ++ [97, 58, 98]) =
      some ([49, 50, 55, 46, 48, 46, 48, 46, 49], (decimal_value [57, 48, 48, 48] : Int),
        [97, 58, 98]) ∧
    (decimal_value [57, 48, 48, 48] : Int) = 9000 :=
  ⟨parse_message_success [49, 50, 55, 46, 48, 46, 48, 46, 49] [57, 48, 48, 48] [97, 58, 98]
    (by decide) (by decide) (by decide) (by decide), by decide⟩

/-- Counterexample to C7 as stated: in the frame `127.0.0.1:9000x:hi` the port
field `9000x` is not an integer numeral, yet `parse_message` returns true with
port 9000. -/
theorem parse_message_accepts_trailing_text :
    2 ≤ colon_count [49, 50, 55, 46, 48, 46, 48, 46, 49, 58, 57, 48, 48, 48, 120, 58, 104, 105] ∧
    port_field [49, 50, 55, 46, 48, 46, 48, 46, 49, 58, 57, 48, 48, 48, 120, 58, 104, 105] =
      [57, 48, 48, 48, 120] ∧
    is_integer_numeral [57, 48, 48, 48, 120] = false ∧
    parse_message [49, 50, 55, 46, 48, 46, 48, 46, 49, 58, 57, 48, 48, 48, 120, 58, 104, 105] =
      some ([49, 50, 55, 46, 48, 46, 48, 46, 49], 9000, [104, 105]) := by
  decide

/-- C7, amended: a frame that has fewer than two colons, or whose port field
(the text strictly between the first and the second colon) does not start,
after optional white space, with an optional sign followed by at least one
decimal digit, makes `parse_message` return false. -/
theorem parse_message_failure (frame : List Byte)
    (h : colon_count frame < 2 ∨ starts_with_numeral (port_field frame) = false) :
    parse_message frame = none := by
  apply parse_message_none_of_stoi_failure
  rcases h with h | h
  · exact Or.inl h
  · exact Or.inr (stoi_none_of_not_numeral _ h)

/-- Witness for C7, amended: the frame `a:b:c` has the non-numeric port field
`b` and is rejected. -/
theorem parse_message_failure_witness :
    (colon_count [97, 58, 98, 58, 99] < 2 ∨
      starts_with_numeral (port_field [97, 58, 98, 58, 99]) = false) ∧
    parse_message [97, 58, 98, 58, 99] = none :=
  ⟨Or.inr (by decide), parse_message_failure [97, 58, 98, 58, 99] (Or.inr (by decide))⟩

/-! ## Lemmas on the connection table -/

theorem lookup_update_self (m : ClientMap) (fd : Int) (f : ClientInfo → ClientInfo) :
    lookup (update m fd f) fd = (lookup m fd).map f := by
  induction m with
  | nil => rfl
  | cons pair rest ih =>
    by_cases h : pair.1 = fd
    · simp [update, lookup, h]
    · simpa [update, lookup, h] using ih

theorem lookup_update_other (m : ClientMap) (fd other : Int) (f : ClientInfo → ClientInfo)
    (hne : other ≠ fd) : lookup (update m fd f) other = lookup m other := by
  induction m with
  | nil => rfl
  | cons pair rest ih =>
    obtain ⟨k, c⟩ := pair
    by_cases h : k = fd
    · subst h
      have h2 : ¬ k = other := fun e => hne e.symm
      simp [update, lookup, h2]
    · by_cases h2 : k = other
      · subst h2
        simp [update, lookup, h]
      · simp only [update, lookup, h, h2, if_false]
        exact ih

theorem update_update (m : ClientMap) (fd : Int) (f g : ClientInfo → ClientInfo) :
    update (update m fd f) fd g = update m fd (fun c => g (f c)) := by
  induction m with
  | nil => rfl
  | cons pair rest ih =>
    by_cases h : pair.1 = fd
    · simp [update, h]
    · simp [update, h, ih]

theorem update_comm (m : ClientMap) (k fd : Int) (f g : ClientInfo → ClientInfo)
    (hfg : ∀ c, f (g c) = g (f c)) :
    update (update m k f) fd g = update (update m fd g) k f := by
  induction m with
  | nil => rfl
  | cons pair rest ih =>
    obtain ⟨key, c⟩ := pair
    by_cases h1 : key = k
    · subst h1
      by_cases h2 : key = fd
      · subst h2
        simp [update, hfg]
      · simp [update, h2]
    · by_cases h2 : key = fd
      · subst h2
        simp [update, h1]
      · simp [update, h1, h2, ih]

theorem update_same (m : ClientMap) (fd : Int) (f : ClientInfo → ClientInfo)
    (h : ∀ c, lookup m fd = some c → f c = c) : update m fd f = m := by
  induction m with
  | nil => rfl
  | cons pair rest ih =>
    obtain ⟨k, c0⟩ := pair
    by_cases hk : k = fd
    · subst hk
      have := h c0 (by simp [lookup])
      simp [update, this]
    · have := ih (fun c hc => h c (by simpa [lookup, hk] using hc))
      simp [update, hk, this]

theorem count_of_lookup (m : ClientMap) (fd : Int) (c : ClientInfo)
    (h : lookup m fd = some c) : count m fd = true := by
  induction m with
  | nil => simp [lookup] at h
  | cons pair rest ih =>
    by_cases hk : pair.1 = fd
    · simp [count, hk]
    · simp only [lookup, hk, if_false] at h
      have := ih h
      simp only [count] at this
      simp [count, this]

theorem lookup_none_of_count (m : ClientMap) (fd : Int) (h : count m fd = false) :
    lookup m fd = none := by
  cases hl : lookup m fd with
  | none => rfl
  | some c => rw [count_of_lookup m fd c hl] at h; cases h

theorem index_update_of_lookup (m : ClientMap) (fd : Int) (c : ClientInfo)
    (f : ClientInfo → ClientInfo) (h : lookup m fd = some c) :
    index_update m fd f = update m fd f := by
  simp [index_update, count_of_lookup m fd c h]

theorem mem_of_lookup (m : ClientMap) (fd : Int) (c : ClientInfo)
    (h : lookup m fd = some c) : (fd, c) ∈ m := by
  induction m with
  | nil => simp [lookup] at h
  | cons pair rest ih =>
    by_cases hk : pair.1 = fd
    · simp only [lookup, hk, if_true, Option.some.injEq] at h
      have : pair = (fd, c) := by rw [← hk, ← h]
      simp [this]
    · simp only [lookup, hk, if_false] at h
      simp [ih h]

theorem lookup_erase_self (m : ClientMap) (fd : Int) : lookup (erase m fd) fd = none := by
  induction m with
  | nil => rfl
  | cons pair rest ih =>
    by_cases hk : pair.1 = fd
    · simpa [erase, List.filter_cons, hk] using ih
    · simpa [erase, List.filter_cons, hk, lookup] using ih

theorem lookup_erase_other (m : ClientMap) (fd other : Int) (hne : other ≠ fd) :
    lookup (erase m fd) other = lookup m other := by
  induction m with
  | nil => rfl
  | cons pair rest ih =>
    obtain ⟨k, c⟩ := pair
    have e : erase ((k, c) :: rest) fd =
        if k = fd then erase rest fd else (k, c) :: erase rest fd := by
      by_cases h : k = fd <;> simp [erase, List.filter_cons, h]
    rw [e]
    by_cases hk : k = fd
    · subst hk
      simp only [if_true]
      have h2 : ¬ k = other := fun e => hne e.symm
      simp only [lookup, h2, if_false]
      exact ih
    · by_cases h2 : k = other
      · subst h2
        simp [lookup, hk]
      · simp only [lookup, hk, h2, if_false]
        exact ih

theorem scan_target_no_peer (m : ClientMap) (ip : List Byte) (port : Int)
    (h : no_peer m ip port) : scan_target m ip port = -1 := by
  induction m with
  | nil => rfl
  | cons pair rest ih =>
    have h1 : ¬ (pair.2.ip = ip ∧ pair.2.port = port) := h pair (by simp)
    have h2 : no_peer rest ip port := fun q hq => h q (by simp [hq])
    simp [scan_target, h1, ih h2]

theorem scan_target_sole_peer (m : ClientMap) (D : Int) (ip : List Byte) (port : Int)
    (h : sole_peer m D ip port) : scan_target m ip port = D := by
  induction m with
  | nil => simp [sole_peer, lookup] at h
  | cons pair rest ih =>
    by_cases hm : pair.2.ip = ip ∧ pair.2.port = port
    · have := h.2 pair (by simp) hm.1 hm.2
      simp [scan_target, hm, this]
    · have hk : pair.1 ≠ D := by
        intro e
        have h1 := h.1
        simp only [lookup, e, if_true, Option.map_some', Option.some.injEq, Prod.mk.injEq] at h1
        exact hm h1
      have hrest : sole_peer rest D ip port := by
        refine ⟨?_, fun q hq => h.2 q (by simp [hq])⟩
        have h1 := h.1
        simpa only [lookup, hk, if_false] using h1
      simp only [scan_target, hm, if_false]
      exact ih hrest

/-! ## Lemmas on `route_message` -/

theorem keys_update (m : ClientMap) (fd : Int) (f : ClientInfo → ClientInfo) :
    (update m fd f).map Prod.fst = m.map Prod.fst := by
  induction m with
  | nil => rfl
  | cons pair rest ih =>
    by_cases h : pair.1 = fd
    · simp [update, h]
    · simp [update, h, ih]

theorem mem_update (m : ClientMap) (fd : Int) (f : ClientInfo → ClientInfo)
    (q : Int × ClientInfo) (hq : q ∈ update m fd f) :
    ∃ p ∈ m, q.1 = p.1 ∧ (q.2 = p.2 ∨ q.2 = f p.2) := by
  induction m with
  | nil => simp [update] at hq
  | cons pair rest ih =>
    by_cases h : pair.1 = fd
    · simp only [update, h, if_true, List.mem_cons] at hq
      rcases hq with hq | hq
      · exact ⟨pair, by simp, by simp [hq, h], Or.inr (by simp [hq])⟩
      · exact ⟨q, by simp [hq], rfl, Or.inl rfl⟩
    · simp only [update, h, if_false, List.mem_cons] at hq
      rcases hq with hq | hq
      · exact ⟨pair, by simp, by simp [hq], Or.inl (by simp [hq])⟩
      · obtain ⟨p, hp, hp2⟩ := ih hq
        exact ⟨p, by simp [hp], hp2⟩

theorem valid_table_update (m : ClientMap) (fd : Int) (f : ClientInfo → ClientInfo)
    (h : valid_table m) : valid_table (update m fd f) := by
  refine ⟨by rw [keys_update]; exact h.1, fun q hq => ?_⟩
  obtain ⟨p, hp, hk, _⟩ := mem_update m fd f q hq
  rw [hk]
  exact h.2 p hp

theorem sole_peer_update (m : ClientMap) (D fd : Int) (ip : List Byte) (port : Int)
    (text : List Byte) (h : sole_peer m D ip port) :
    sole_peer (update m fd (append_write text)) D ip port := by
  constructor
  · by_cases hfd : D = fd
    · subst hfd
      rw [lookup_update_self]
      have h1 := h.1
      cases hl : lookup m D with
      | none => simp [hl] at h1
      | some d => simpa [hl, append_write] using h1
    · rw [lookup_update_other m fd D _ hfd]
      exact h.1
  · intro q hq hip hport
    obtain ⟨p, hp, hk, hc⟩ := mem_update m fd _ q hq
    rw [hk]
    rcases hc with hc | hc
    · rw [hc] at hip hport
      exact h.2 p hp hip hport
    · rw [hc] at hip hport
      exact h.2 p hp hip hport

theorem route_message_invalid (context : ServerContext) (fd : Int) (s : ClientInfo)
    (frame : List Byte) (hparse : parse_message frame = none)
    (hs : lookup context.clients fd = some s) :
    route_message context fd frame =
      { context with clients := update context.clients fd (append_write invalid_format_text) } := by
  simp only [route_message, hparse, index_update_of_lookup _ fd s _ hs]

theorem route_message_not_found (context : ServerContext) (fd : Int) (s : ClientInfo)
    (frame ip payload : List Byte) (port : Int)
    (hparse : parse_message frame = some (ip, port, payload))
    (hnone : no_peer context.clients ip port)
    (hs : lookup context.clients fd = some s) :
    route_message context fd frame =
      { context with clients := update context.clients fd (append_write not_found_text) } := by
  simp [route_message, hparse, scan_target_no_peer _ ip port hnone,
    index_update_of_lookup _ fd s _ hs]

theorem route_message_found (context : ServerContext) (fd D : Int)
    (frame ip payload : List Byte) (port : Int)
    (hparse : parse_message frame = some (ip, port, payload))
    (hpeer : sole_peer context.clients D ip port)
    (hv : valid_table context.clients) :
    route_message context fd frame =
      { context with clients := update context.clients D (append_write payload) } := by
  obtain ⟨d, hd⟩ : ∃ d, lookup context.clients D = some d := by
    have h1 := hpeer.1
    cases hl : lookup context.clients D with
    | none => simp [hl] at h1
    | some d => exact ⟨d, rfl⟩
  have hnonneg : 0 ≤ D := hv.2 (D, d) (mem_of_lookup _ D d hd)
  have hne : D ≠ -1 := by omega
  simp [route_message, hparse, scan_target_sole_peer _ D ip port hpeer, hne,
    count_of_lookup _ D d hd, index_update_of_lookup _ D d _ hd]

theorem frame_eq_frame_of (ip digits payload : List Byte) :
    ip ++ [colon] ++ digits ++ [colon] ++ payload = frame_of ip digits payload := by
  simp [frame_of]

theorem parse_message_port_digits (ip digits payload : List Byte) (hip : colon ∉ ip)
    (hd : port_digits digits) :
    parse_message (ip ++ [colon] ++ digits ++ [colon] ++ payload) =
      some (ip, (decimal_value digits : Int), payload) := by
  rw [frame_eq_frame_of]
  exact parse_message_frame_of ip digits payload hip hd.1 hd.2.1 hd.2.2

/-! ## Routing properties -/

/-- C1: in a table where exactly one connection `D` has peer address
`(ip, port)`, processing the frame `ip:port:payload` on behalf of any sender
`S` (also `S = D`) leaves the `write_buf` of `D` equal to its previous
contents followed by exactly the payload bytes, and leaves every other
connection as it was. -/
theorem route_message_delivery (context : ServerContext) (S D : Int) (d : ClientInfo)
    (ip digits payload : List Byte)
    (hv : valid_table context.clients)
    (hD : lookup context.clients D = some d)
    (hpeer : sole_peer context.clients D ip (decimal_value digits))
    (hip : colon ∉ ip) (hdigits : port_digits digits) :
    lookup (route_message context S (ip ++ [colon] ++ digits ++ [colon] ++ payload)).clients D =
        some { d with write_buf := d.write_buf ++ payload } ∧
    ∀ other, other ≠ D →
      lookup (route_message context S (ip ++ [colon] ++ digits ++ [colon] ++ payload)).clients
        other = lookup context.clients other := by
  rw [route_message_found context S D _ ip payload _
    (parse_message_port_digits ip digits payload hip hdigits) hpeer hv]
  refine ⟨?_, fun other hne => lookup_update_other _ D other _ hne⟩
  simp only [lookup_update_self, hD, Option.map_some', append_write]

/-- Witness for C1: descriptor 6 sends `127.0.0.1:9000:hello`; the bytes
`hello` are appended to the write buffer of descriptor 5 and descriptor 6 is
unchanged. -/
theorem route_message_delivery_witness :
    lookup (route_message sample_context 6
        (loopback ++ [colon] ++ [57, 48, 48, 48] ++ [colon] ++ [104, 101, 108, 108, 111])).clients 5 =
      some { ip := loopback, port := 9000, read_buf := [],
             write_buf := [120] ++ [104, 101, 108, 108, 111] } ∧
    lookup (route_message sample_context 6
        (loopback ++ [colon] ++ [57, 48, 48, 48] ++ [colon] ++ [104, 101, 108, 108, 111])).clients 6 =
      lookup sample_context.clients 6 :=
  have h := route_message_delivery sample_context 6 5
    { ip := loopback, port := 9000, read_buf := [], write_buf := [120] }
    loopback [57, 48, 48, 48] [104, 101, 108, 108, 111]
    (by unfold valid_table; decide) (by decide) (by unfold sole_peer; decide) (by decide)
    (by unfold port_digits; decide)
  ⟨h.1, h.2 6 (by decide)⟩

/-- C4: a frame that lacks a second colon, sent by a connection `S` of the
table, appends exactly the fixed invalid-format text to the `write_buf` of
`S` and leaves every other connection as it was; nothing is delivered. -/
theorem route_message_malformed (context : ServerContext) (S : Int) (s : ClientInfo)
    (frame : List Byte) (hframe : colon_count frame < 2)
    (hS : lookup context.clients S = some s) :
    lookup (route_message context S frame).clients S =
        some { s with write_buf := s.write_buf ++ invalid_format_text } ∧
    ∀ other, other ≠ S →
      lookup (route_message context S frame).clients other = lookup context.clients other := by
  rw [route_message_invalid context S s frame
    (parse_message_none_of_stoi_failure frame (Or.inl hframe)) hS]
  refine ⟨?_, fun other hne => lookup_update_other _ S other _ hne⟩
  simp only [lookup_update_self, hS, Option.map_some', append_write]

/-- Witness for C4: descriptor 6 sends `badmessage` and gets the
invalid-format text; descriptor 5 is unchanged. -/
theorem route_message_malformed_witness :
    colon_count [98, 97, 100, 109, 101, 115, 115, 97, 103, 101] < 2 ∧
    lookup (route_message sample_context 6
        [98, 97, 100, 109, 101, 115, 115, 97, 103, 101]).clients 6 =
      some { ip := loopback, port := 9001, read_buf := [],
             write_buf := [] ++ invalid_format_text } ∧
    lookup (route_message sample_context 6
        [98, 97, 100, 109, 101, 115, 115, 97, 103, 101]).clients 5 =
      lookup sample_context.clients 5 :=
  have h := route_message_malformed sample_context 6
    { ip := loopback, port := 9001, read_buf := [], write_buf := [] }
    [98, 97, 100, 109, 101, 115, 115, 97, 103, 101] (by decide) (by decide)
  ⟨by decide, h.1, h.2 5 (by decide)⟩

/-- C5: a frame that parses to `(ip, port, payload)` while no connection of
the table has peer address `(ip, port)`, sent by a connection `S` of the
table, appends exactly the fixed not-found text to the `write_buf` of `S` and
leaves every other connection as it was. -/
theorem route_message_unknown_destination (context : ServerContext) (S : Int) (s : ClientInfo)
    (frame ip payload : List Byte) (port : Int)
    (hparse : parse_message frame = some (ip, port, payload))
    (hnone : no_peer context.clients ip port)
    (hS : lookup context.clients S = some s) :
    lookup (route_message context S frame).clients S =
        some { s with write_buf := s.write_buf ++ not_found_text } ∧
    ∀ other, other ≠ S →
      lookup (route_message context S frame).clients other = lookup context.clients other := by
  rw [route_message_not_found context S s frame ip payload port hparse hnone hS]
  refine ⟨?_, fun other hne => lookup_update_other _ S other _ hne⟩
  simp only [lookup_update_self, hS, Option.map_some', append_write]

/-- Witness for C5: descriptor 6 sends `127.0.0.1:9002:hello`, nobody is at
port 9002, so descriptor 6 gets the not-found text and descriptor 5 is
unchanged. -/
theorem route_message_unknown_destination_witness :
    lookup (route_message sample_context 6
        (loopback ++ [colon] ++ [57, 48, 48, 50] ++ [colon] ++ [104, 101, 108, 108, 111])).clients 6 =
      some { ip := loopback, port := 9001, read_buf := [],
             write_buf := [] ++ not_found_text } ∧
    lookup (route_message sample_context 6
        (loopback ++ [colon] ++ [57, 48, 48, 50] ++ [colon] ++ [104, 101, 108, 108, 111])).clients 5 =
      lookup sample_context.clients 5 :=
  have h := route_message_unknown_destination sample_context 6
    { ip := loopback, port := 9001, read_buf := [], write_buf := [] }
    (loopback ++ [colon] ++ [57, 48, 48, 50] ++ [colon] ++ [104, 101, 108, 108, 111])
    loopback [104, 101, 108, 108, 111] 9002
    (by decide) (by unfold no_peer; decide) (by decide)
  ⟨h.1, h.2 5 (by decide)⟩

/-! ## Disconnection -/

theorem lookup_disconnect_self (context : ServerContext) (fd : Int) :
    lookup (disconnect_client context fd).clients fd = none := by
  unfold disconnect_client
  cases hc : count context.clients fd with
  | true => simpa using lookup_erase_self context.clients fd
  | false => simpa using lookup_none_of_count _ fd hc

theorem lookup_disconnect_other (context : ServerContext) (fd other : Int) (hne : other ≠ fd) :
    lookup (disconnect_client context fd).clients other = lookup context.clients other := by
  unfold disconnect_client
  cases hc : count context.clients fd with
  | true => simpa using lookup_erase_other context.clients fd other hne
  | false => simp

theorem no_peer_disconnect (context : ServerContext) (C : Int) (ip : List Byte) (port : Int)
    (hpeer : sole_peer context.clients C ip port) :
    no_peer (disconnect_client context C).clients ip port := by
  intro q hq hm
  have hk : q.1 = C ∧ q ∈ context.clients → False := by
    intro ⟨hk, _⟩
    unfold disconnect_client at hq
    cases hc : count context.clients C with
    | true =>
      rw [hc] at hq
      simp [erase, hk] at hq
    | false =>
      have h1 := hpeer.1
      rw [lookup_none_of_count _ C hc] at h1
      simp at h1
  have hmem : q ∈ context.clients := by
    unfold disconnect_client at hq
    cases hc : count context.clients C with
    | true =>
      rw [hc] at hq
      simp only [if_true, erase, List.mem_filter] at hq
      exact hq.1
    | false =>
      rw [hc] at hq
      simpa using hq
  exact hk ⟨hpeer.2 q hmem hm.1 hm.2, hmem⟩

/-- C8: when `C` is the only connection with peer address `(ip, port)`, then
after `disconnect_client` for `C` the table has no entry for `C`, all other
entries are unchanged, and a frame `ip:port:payload` then processed for a
remaining sender `S` is treated as destination-not-found: the not-found text
is appended to the `write_buf` of `S` and nothing else changes. -/
theorem disconnect_then_route (context : ServerContext) (C S : Int) (s : ClientInfo)
    (ip digits payload : List Byte)
    (hpeer : sole_peer context.clients C ip (decimal_value digits))
    (hip : colon ∉ ip) (hdigits : port_digits digits)
    (hS : lookup context.clients S = some s) (hne : S ≠ C) :
    lookup (disconnect_client context C).clients C = none ∧
    (∀ other, other ≠ C →
      lookup (disconnect_client context C).clients other = lookup context.clients other) ∧
    lookup (route_message (disconnect_client context C) S
        (ip ++ [colon] ++ digits ++ [colon] ++ payload)).clients S =
      some { s with write_buf := s.write_buf ++ not_found_text } ∧
    (∀ other, other ≠ S →
      lookup (route_message (disconnect_client context C) S
          (ip ++ [colon] ++ digits ++ [colon] ++ payload)).clients other =
        lookup (disconnect_client context C).clients other) := by
  have hS1 : lookup (disconnect_client context C).clients S = some s := by
    rw [lookup_disconnect_other context C S hne]; exact hS
  refine ⟨lookup_disconnect_self context C, fun other h => lookup_disconnect_other context C other h,
    ?_⟩
  rw [route_message_not_found (disconnect_client context C) S s _ ip payload _
    (parse_message_port_digits ip digits payload hip hdigits)
    (no_peer_disconnect context C ip _ hpeer) hS1]
  refine ⟨?_, fun other h => lookup_update_other _ S other _ h⟩
  simp only [lookup_update_self, hS1, Option.map_some', append_write]

/-- Witness for C8: descriptor 5 (`127.0.0.1:9000`) is disconnected; the frame
`127.0.0.1:9000:hello` then sent by descriptor 6 yields the not-found text on
descriptor 6. -/
theorem disconnect_then_route_witness :
    lookup sample_context.clients 5 ≠ none ∧
    lookup (disconnect_client sample_context 5).clients 5 = none ∧
    lookup (disconnect_client sample_context 5).clients 6 = lookup sample_context.clients 6 ∧
    lookup (route_message (disconnect_client sample_context 5) 6
        (loopback ++ [colon] ++ [57, 48, 48, 48] ++ [colon] ++ [104, 101, 108, 108, 111])).clients 6 =
      some { ip := loopback, port := 9001, read_buf := [],
             write_buf := [] ++ not_found_text } :=
  have h := disconnect_then_route sample_context 5 6
    { ip := loopback, port := 9001, read_buf := [], write_buf := [] }
    loopback [57, 48, 48, 48] [104, 101, 108, 108, 111]
    (by unfold sole_peer; decide) (by decide) (by unfold port_digits; decide) (by decide)
    (by decide)
  ⟨by decide, h.1, h.2.1 6 (by decide), h.2.2.1⟩

/-! ## Sequences of deliveries to one destination -/

theorem route_all_eq_update (context : ServerContext) (D : Int) (ip : List Byte) (port : Int)
    (steps : List RoutedFrame)
    (hv : valid_table context.clients)
    (hpeer : sole_peer context.clients D ip port)
    (hip : colon ∉ ip)
    (hsteps : ∀ step ∈ steps, port_digits step.digits ∧ (decimal_value step.digits : Int) = port) :
    route_all context ip steps =
      { context with
        clients := update context.clients D
          (append_write (steps.map (fun step => step.payload)).flatten) } := by
  induction steps generalizing context with
  | nil =>
    have e : update context.clients D (append_write []) = context.clients :=
      update_same _ D _ (fun c _ => by simp [append_write])
    simp [route_all, e]
  | cons step rest ih =>
    have hstep := hsteps step (by simp)
    have hparse := parse_message_port_digits ip step.digits step.payload hip hstep.1
    rw [hstep.2] at hparse
    have h1 := route_message_found context step.sender D _ ip step.payload port hparse hpeer hv
    have e : route_all context ip (step :: rest) =
        route_all (route_message context step.sender
          (ip ++ [colon] ++ step.digits ++ [colon] ++ step.payload)) ip rest := rfl
    rw [e, h1]
    rw [ih _ (valid_table_update _ D _ hv) (sole_peer_update _ D D ip port _ hpeer)
      (fun q hq => hsteps q (by simp [hq]))]
    have e2 : update (update context.clients D (append_write step.payload)) D
        (append_write (rest.map (fun step => step.payload)).flatten) =
        update context.clients D
          (append_write ((step :: rest).map (fun step => step.payload)).flatten) := by
      rw [update_update]
      congr 1
      funext c
      simp [append_write]
    simp only [e2]

/-- C10: with the frame-processing steps of concurrent Read tasks taken as a
sequence, in the order in which they hold the table lock, and with `D` the
only connection at `(ip, port)`: after any finite sequence of well-formed
frames addressed to `(ip, port)`, sent by any senders, the `write_buf` of `D`
is its previous contents followed by the payloads in processing order, each
exactly once and as one contiguous block; no other connection changes. -/
theorem route_all_appends_in_order (context : ServerContext) (D : Int) (d : ClientInfo)
    (ip : List Byte) (port : Int) (steps : List RoutedFrame)
    (hv : valid_table context.clients)
    (hD : lookup context.clients D = some d)
    (hpeer : sole_peer context.clients D ip port)
    (hip : colon ∉ ip)
    (hsteps : ∀ step ∈ steps, port_digits step.digits ∧ (decimal_value step.digits : Int) = port) :
    lookup (route_all context ip steps).clients D =
        some { d with
               write_buf := d.write_buf ++ (steps.map (fun step => step.payload)).flatten } ∧
    ∀ other, other ≠ D →
      lookup (route_all context ip steps).clients other = lookup context.clients other := by
  rw [route_all_eq_update context D ip port steps hv hpeer hip hsteps]
  refine ⟨?_, fun other hne => lookup_update_other _ D other _ hne⟩
  simp only [lookup_update_self, hD, Option.map_some', append_write]

/-- Witness for C10: descriptor 6 sends `127.0.0.1:9000:hello`, descriptor 5
sends `127.0.0.1:09000:a:b`, descriptor 6 sends `127.0.0.1:9000:` (empty
payload); descriptor 5 ends with `x`, `hello`, `a:b` in that order. -/
theorem route_all_appends_in_order_witness :
    lookup (route_all sample_context loopback
        [{ sender := 6, digits := [57, 48, 48, 48], payload := [104, 101, 108, 108, 111] },
         { sender := 5, digits := [48, 57, 48, 48, 48], payload := [97, 58, 98] },
         { sender := 6, digits := [57, 48, 48, 48], payload := [] }]).clients 5 =
      some { ip := loopback, port := 9000, read_buf := [],
             write_buf := [120] ++ [[104, 101, 108, 108, 111], [97, 58, 98], []].flatten } ∧
    lookup (route_all sample_context loopback
        [{ sender := 6, digits := [57, 48, 48, 48], payload := [104, 101, 108, 108, 111] },
         { sender := 5, digits := [48, 57, 48, 48, 48], payload := [97, 58, 98] },
         { sender := 6, digits := [57, 48, 48, 48], payload := [] }]).clients 6 =
      lookup sample_context.clients 6 :=
  have h := route_all_appends_in_order sample_context 5
    { ip := loopback, port := 9000, read_buf := [], write_buf := [120] } loopback 9000
    [{ sender := 6, digits := [57, 48, 48, 48], payload := [104, 101, 108, 108, 111] },
     { sender := 5, digits := [48, 57, 48, 48, 48], payload := [97, 58, 98] },
     { sender := 6, digits := [57, 48, 48, 48], payload := [] }]
    (by unfold valid_table; decide) (by decide) (by unfold sole_peer; decide) (by decide)
    (by unfold port_digits; decide)
  ⟨h.1, h.2 6 (by decide)⟩

/-! ## Lemmas on the frame loop -/

theorem count_update (m : ClientMap) (fd k : Int) (g : ClientInfo → ClientInfo) :
    count (update m fd g) k = count m k := by
  induction m with
  | nil => rfl
  | cons pair rest ih =>
    by_cases h : pair.1 = fd
    · simp [update, h, count]
    · simp only [count] at ih
      simp [update, h, count, ih]

theorem scan_target_update (m : ClientMap) (fd : Int) (g : ClientInfo → ClientInfo)
    (ip : List Byte) (port : Int)
    (hip : ∀ c, (g c).ip = c.ip) (hport : ∀ c, (g c).port = c.port) :
    scan_target (update m fd g) ip port = scan_target m ip port := by
  induction m with
  | nil => rfl
  | cons pair rest ih =>
    by_cases h : pair.1 = fd
    · simp [update, h, scan_target, hip, hport]
    · simp [update, h, scan_target, ih]

theorem index_update_of_count (m : ClientMap) (fd : Int) (f : ClientInfo → ClientInfo)
    (h : count m fd = true) : index_update m fd f = update m fd f := by
  simp [index_update, h]

theorem route_message_as_update (context : ServerContext) (fd : Int) (frame : List Byte)
    (hfd : count context.clients fd = true) :
    ∃ k text, count context.clients k = true ∧ ∀ (g : ClientInfo → ClientInfo),
      (∀ c, (g c).ip = c.ip) → (∀ c, (g c).port = c.port) →
      route_message { context with clients := update context.clients fd g } fd frame =
        { context with
          clients := update (update context.clients fd g) k (append_write text) } := by
  have hfd1 : ∀ g : ClientInfo → ClientInfo, count (update context.clients fd g) fd = true :=
    fun g => by rw [count_update]; exact hfd
  cases hp : parse_message frame with
  | none =>
    refine ⟨fd, invalid_format_text, hfd, fun g _ _ => ?_⟩
    simp only [route_message, hp]
    rw [index_update_of_count _ fd _ (hfd1 g)]
  | some t =>
    obtain ⟨ip, port, payload⟩ := t
    by_cases hc : scan_target context.clients ip port ≠ -1 ∧
        count context.clients (scan_target context.clients ip port) = true
    · refine ⟨scan_target context.clients ip port, payload, hc.2, fun g hip hport => ?_⟩
      have hk : count (update context.clients fd g) (scan_target context.clients ip port) = true := by
        rw [count_update]; exact hc.2
      simp only [route_message, hp, scan_target_update _ fd g ip port hip hport]
      rw [if_pos ⟨hc.1, hk⟩, index_update_of_count _ _ _ hk]
    · refine ⟨fd, not_found_text, hfd, fun g hip hport => ?_⟩
      simp only [route_message, hp, scan_target_update _ fd g ip port hip hport, count_update]
      rw [if_neg hc, index_update_of_count _ fd _ (hfd1 g)]

theorem process_line_as_update (context : ServerContext) (fd : Int) (line : List Byte)
    (hfd : count context.clients fd = true) :
    ∃ k text frame, count context.clients k = true ∧ ∀ (g : ClientInfo → ClientInfo),
      (∀ c, (g c).ip = c.ip) → (∀ c, (g c).port = c.port) →
      process_line { context with clients := update context.clients fd g } fd line =
        ({ context with
           clients := update (update context.clients fd g) k (append_write text) }, frame) := by
  by_cases he : strip_carriage_return line = []
  · refine ⟨fd, [], none, hfd, fun g _ _ => ?_⟩
    have e : update (update context.clients fd g) fd (append_write []) =
        update context.clients fd g := update_same _ fd _ (fun c _ => by simp [append_write])
    simp [process_line, he, e]
  · obtain ⟨k, text, hk, h⟩ := route_message_as_update context fd (strip_carriage_return line) hfd
    refine ⟨k, text, some (strip_carriage_return line), hk, fun g hip hport => ?_⟩
    simp [process_line, he, h g hip hport]

theorem find_zero (s : List Byte) (c : Byte) : find s c 0 = find_first s c := by
  simp [find]

theorem frame_loop_stop (context : ServerContext) (fd : Int) (client : ClientInfo) (fuel : Nat)
    (hl : lookup context.clients fd = some client) (hn : newline ∉ client.read_buf) :
    frame_loop (fuel + 1) context fd = some (context, []) := by
  simp [frame_loop, hl, find_zero, find_first_none_of_not_mem _ _ hn]

theorem frame_loop_step (context : ServerContext) (fd : Int) (client : ClientInfo) (fuel : Nat)
    (line rest : List Byte)
    (hl : lookup context.clients fd = some client)
    (hb : client.read_buf = line ++ newline :: rest) (hn : newline ∉ line) :
    frame_loop (fuel + 1) context fd =
      (frame_loop fuel
        (process_line { context with clients := update context.clients fd (set_read_buf rest) }
          fd line).1 fd).map
        (fun r => (r.1, line :: r.2)) := by
  have h1 : substr (line ++ newline :: rest) 0 line.length = line := by simp [substr]
  have h2 : erase_front (line ++ newline :: rest) (line.length + 1) = rest := by
    unfold erase_front
    rw [drop_length_add]
    rfl
  simp only [frame_loop, hl, hb, find_zero, find_first_append line rest newline hn, h1, h2]

theorem lookup_after_line (m : ClientMap) (fd k : Int) (client : ClientInfo)
    (g : ClientInfo → ClientInfo) (text : List Byte) (hl : lookup m fd = some client) :
    ∃ c2, lookup (update (update m fd g) k (append_write text)) fd = some c2 ∧
      c2.read_buf = (g client).read_buf := by
  by_cases hk : fd = k
  · subst hk
    refine ⟨append_write text (g client), ?_, rfl⟩
    rw [lookup_update_self, lookup_update_self, hl]
    rfl
  · refine ⟨g client, ?_, rfl⟩
    rw [lookup_update_other _ k fd _ hk, lookup_update_self, hl]
    rfl

theorem frame_loop_enough_fuel (fd : Int) (n : Nat) :
    ∀ (context : ServerContext) (client : ClientInfo),
      lookup context.clients fd = some client → client.read_buf.length ≤ n →
      ∃ r, ∀ fuel, n < fuel → frame_loop fuel context fd = some r := by
  induction n with
  | zero =>
    intro context client hl hlen
    have hn : newline ∉ client.read_buf := by
      have : client.read_buf = [] := List.length_eq_zero.mp (Nat.le_zero.mp hlen)
      simp [this]
    refine ⟨(context, []), fun fuel hf => ?_⟩
    obtain ⟨f, rfl⟩ : ∃ f, fuel = f + 1 := ⟨fuel - 1, by omega⟩
    exact frame_loop_stop context fd client f hl hn
  | succ n ih =>
    intro context client hl hlen
    rcases split_at_first client.read_buf newline with hn | ⟨line, rest, hb, hn⟩
    · refine ⟨(context, []), fun fuel hf => ?_⟩
      obtain ⟨f, rfl⟩ : ∃ f, fuel = f + 1 := ⟨fuel - 1, by omega⟩
      exact frame_loop_stop context fd client f hl hn
    · obtain ⟨k, text, frame, _, hpl⟩ :=
        process_line_as_update context fd line (count_of_lookup _ fd client hl)
      have hstep := hpl (set_read_buf rest) (fun _ => rfl) (fun _ => rfl)
      obtain ⟨c2, hc2, hrb⟩ :=
        lookup_after_line context.clients fd k client (set_read_buf rest) text hl
      have hlen2 : c2.read_buf.length ≤ n := by
        rw [hrb]
        have : client.read_buf.length = line.length + (rest.length + 1) := by
          rw [hb]; simp
        simp only [set_read_buf]
        omega
      obtain ⟨r2, hr2⟩ := ih
        { context with
          clients := update (update context.clients fd (set_read_buf rest)) k (append_write text) }
        c2 hc2 hlen2
      refine ⟨(r2.1, line :: r2.2), fun fuel hf => ?_⟩
      obtain ⟨f, rfl⟩ : ∃ f, fuel = f + 1 := ⟨fuel - 1, by omega⟩
      rw [frame_loop_step context fd client f line rest hl hb hn, hstep]
      simp only
      rw [hr2 f (by omega)]
      rfl

theorem frame_loop_fuel_irrelevant (context : ServerContext) (fd : Int) (client : ClientInfo)
    (fuel : Nat) (hl : lookup context.clients fd = some client)
    (hf : client.read_buf.length < fuel) :
    frame_loop fuel context fd = frame_loop (client.read_buf.length + 1) context fd := by
  obtain ⟨r, hr⟩ := frame_loop_enough_fuel fd client.read_buf.length context client hl (le_refl _)
  rw [hr fuel hf, hr _ (Nat.lt_succ_self _)]

theorem process_frames_of_lookup (context : ServerContext) (fd : Int) (client : ClientInfo)
    (hl : lookup context.clients fd = some client) :
    process_frames context fd = frame_loop (client.read_buf.length + 1) context fd := by
  simp [process_frames, count_of_lookup _ fd client hl, read_buf_length, hl]

theorem lookup_of_count (m : ClientMap) (fd : Int) (h : count m fd = true) :
    ∃ c, lookup m fd = some c := by
  cases hl : lookup m fd with
  | some c => exact ⟨c, rfl⟩
  | none =>
    exfalso
    induction m with
    | nil => simp [count] at h
    | cons pair rest ih =>
      by_cases hk : pair.1 = fd
      · simp [lookup, hk] at hl
      · simp only [lookup, hk, if_false] at hl
        simp only [count, List.any_cons, Bool.or_eq_true, beq_iff_eq] at h
        rcases h with h | h
        · exact hk h
        · exact ih (by simpa [count] using h) hl

theorem process_frames_total (context : ServerContext) (fd : Int) :
    ∃ r, process_frames context fd = some r := by
  cases hc : count context.clients fd with
  | false => exact ⟨(context, []), by simp [process_frames, hc]⟩
  | true =>
    obtain ⟨client, hl⟩ := lookup_of_count _ fd hc
    obtain ⟨r, hr⟩ := frame_loop_enough_fuel fd client.read_buf.length context client hl (le_refl _)
    exact ⟨r, by rw [process_frames_of_lookup context fd client hl, hr _ (Nat.lt_succ_self _)]⟩

theorem process_frames_stop (context : ServerContext) (fd : Int) (client : ClientInfo)
    (hl : lookup context.clients fd = some client) (hn : newline ∉ client.read_buf) :
    process_frames context fd = some (context, []) := by
  rw [process_frames_of_lookup context fd client hl]
  exact frame_loop_stop context fd client _ hl hn

theorem process_frames_step (context context2 : ServerContext) (fd : Int)
    (client c2 : ClientInfo) (line rest : List Byte) (frame : Option (List Byte))
    (hl : lookup context.clients fd = some client)
    (hb : client.read_buf = line ++ newline :: rest) (hn : newline ∉ line)
    (hstep : process_line { context with clients := update context.clients fd (set_read_buf rest) }
      fd line = (context2, frame))
    (hc2 : lookup context2.clients fd = some c2) (hrb : c2.read_buf = rest) :
    process_frames context fd =
      (process_frames context2 fd).map (fun r => (r.1, line :: r.2)) := by
  rw [process_frames_of_lookup context fd client hl,
    frame_loop_step context fd client _ line rest hl hb hn, hstep]
  simp only
  rw [process_frames_of_lookup context2 fd c2 hc2]
  rw [frame_loop_fuel_irrelevant context2 fd c2 client.read_buf.length hc2 (by
    rw [hrb, hb]; simp; omega)]

theorem store_chunk_of_lookup (context : ServerContext) (fd : Int) (client : ClientInfo)
    (chunk : List Byte) (hl : lookup context.clients fd = some client) :
    store_chunk context fd chunk =
      { context with clients := update context.clients fd (append_read chunk) } := by
  simp [store_chunk, count_of_lookup _ fd client hl, index_update]

theorem store_chunk_absent (context : ServerContext) (fd : Int) (chunk : List Byte)
    (hc : count context.clients fd = false) : store_chunk context fd chunk = context := by
  simp [store_chunk, hc]

theorem process_frames_split (fd : Int) (n : Nat) :
    ∀ (context : ServerContext) (client : ClientInfo) (data : List Byte),
      lookup context.clients fd = some client → client.read_buf.length ≤ n →
      ∃ c1 f1 c2 f2,
        process_frames context fd = some (c1, f1) ∧
        process_frames (store_chunk c1 fd data) fd = some (c2, f2) ∧
        process_frames (store_chunk context fd data) fd = some (c2, f1 ++ f2) := by
  induction n with
  | zero =>
    intro context client data hl hlen
    have hn : newline ∉ client.read_buf := by
      have : client.read_buf = [] := List.length_eq_zero.mp (Nat.le_zero.mp hlen)
      simp [this]
    obtain ⟨r, hr⟩ := process_frames_total (store_chunk context fd data) fd
    exact ⟨context, [], r.1, r.2, process_frames_stop context fd client hl hn, hr, by simpa using hr⟩
  | succ n ih =>
    intro context client data hl hlen
    rcases split_at_first client.read_buf newline with hn | ⟨line, rest, hb, hn⟩
    · obtain ⟨r, hr⟩ := process_frames_total (store_chunk context fd data) fd
      exact ⟨context, [], r.1, r.2, process_frames_stop context fd client hl hn, hr,
        by simpa using hr⟩
    · obtain ⟨k, text, frame, _, hpl⟩ :=
        process_line_as_update context fd line (count_of_lookup _ fd client hl)
      -- the step on the original buffer
      have hstep := hpl (set_read_buf rest) (fun _ => rfl) (fun _ => rfl)
      obtain ⟨c2, hc2, hrb⟩ :=
        lookup_after_line context.clients fd k client (set_read_buf rest) text hl
      have hrb2 : c2.read_buf = rest := hrb
      have hlen2 : c2.read_buf.length ≤ n := by
        have : client.read_buf.length = line.length + (rest.length + 1) := by
          rw [hb]; simp
        rw [hrb2]
        omega
      -- the step on the buffer extended by `data`
      have hstep3 := hpl (set_read_buf (rest ++ data)) (fun _ => rfl) (fun _ => rfl)
      obtain ⟨c3, hc3, hrb3⟩ :=
        lookup_after_line context.clients fd k client (set_read_buf (rest ++ data)) text hl
      have hl3 : lookup (store_chunk context fd data).clients fd =
          some (append_read data client) := by
        rw [store_chunk_of_lookup context fd client data hl]
        simp [lookup_update_self, hl]
      have hb3 : (append_read data client).read_buf = line ++ newline :: (rest ++ data) := by
        simp [append_read, hb]
      have e1 : update (store_chunk context fd data).clients fd (set_read_buf (rest ++ data)) =
          update context.clients fd (set_read_buf (rest ++ data)) := by
        rw [store_chunk_of_lookup context fd client data hl]
        simp only
        rw [update_update]
        rfl
      have e0 : (store_chunk context fd data).epoll_fd = context.epoll_fd := by
        rw [store_chunk_of_lookup context fd client data hl]
      have e2 : store_chunk
          { context with
            clients := update (update context.clients fd (set_read_buf rest)) k
              (append_write text) } fd data =
          { context with
            clients := update (update context.clients fd (set_read_buf (rest ++ data))) k
              (append_write text) } := by
        rw [store_chunk_of_lookup _ fd c2 data hc2]
        simp only
        rw [update_comm _ k fd (append_write text) (append_read data) (fun c => rfl),
          update_update]
        rfl
      obtain ⟨d1, g1, d2, g2, h1, h2, h3⟩ := ih
        { context with
          clients := update (update context.clients fd (set_read_buf rest)) k (append_write text) }
        c2 data hc2 hlen2
      refine ⟨d1, line :: g1, d2, g2, ?_, h2, ?_⟩
      · rw [process_frames_step context _ fd client c2 line rest frame hl hb hn hstep hc2 hrb2, h1]
        rfl
      · have hstep3' : process_line
            { store_chunk context fd data with
              clients := update (store_chunk context fd data).clients fd
                (set_read_buf (rest ++ data)) } fd line =
            ({ context with
               clients := update (update context.clients fd (set_read_buf (rest ++ data))) k
                 (append_write text) }, frame) := by
          simp only [e1, e0]
          exact hstep3
        rw [process_frames_step (store_chunk context fd data) _ fd (append_read data client) c3
          line (rest ++ data) frame hl3 hb3 hn hstep3' hc3 hrb3, ← e2, h3]
        simp

theorem store_chunk_append (context : ServerContext) (fd : Int) (B1 B2 : List Byte) :
    store_chunk (store_chunk context fd B1) fd B2 = store_chunk context fd (B1 ++ B2) := by
  cases hc : count context.clients fd with
  | false => simp [store_chunk, hc]
  | true =>
    obtain ⟨client, hl⟩ := lookup_of_count _ fd hc
    have hl1 : lookup (store_chunk context fd B1).clients fd = some (append_read B1 client) := by
      rw [store_chunk_of_lookup context fd client B1 hl]
      simp [lookup_update_self, hl]
    rw [store_chunk_of_lookup _ fd _ B2 hl1, store_chunk_of_lookup context fd client B1 hl,
      store_chunk_of_lookup context fd client (B1 ++ B2) hl]
    simp only
    rw [update_update]
    congr 2
    funext c
    simp [append_read]

/-- C2: the framer is fragmentation-invariant.  For every table (so for every
initial read buffer of `fd`), every byte string and every split of it into
`B1 ++ B2`: feeding `B1` and then `B2` in two passes and feeding `B1 ++ B2` in
one pass both run to completion, extract the same lines in the same order
(each line is then stripped, skipped or parsed and routed on its own by
`process_line`), and end in the same table, hence with the same residual
read buffer. -/
theorem feed_fragmentation_invariant (context : ServerContext) (fd : Int) (B1 B2 : List Byte) :
    ∃ c1 f1 c2 f2,
      feed context fd B1 = some (c1, f1) ∧
      feed c1 fd B2 = some (c2, f2) ∧
      feed context fd (B1 ++ B2) = some (c2, f1 ++ f2) := by
  unfold feed
  cases hc : count context.clients fd with
  | false =>
    refine ⟨context, [], context, [], ?_, ?_, ?_⟩ <;>
      simp [store_chunk_absent _ fd _ hc, process_frames, hc]
  | true =>
    obtain ⟨client, hl⟩ := lookup_of_count _ fd hc
    have hl1 : lookup (store_chunk context fd B1).clients fd = some (append_read B1 client) := by
      rw [store_chunk_of_lookup context fd client B1 hl]
      simp [lookup_update_self, hl]
    obtain ⟨c1, f1, c2, f2, h1, h2, h3⟩ :=
      process_frames_split fd _ (store_chunk context fd B1) _ B2 hl1 (le_refl _)
    rw [store_chunk_append] at h3
    exact ⟨c1, f1, c2, f2, h1, h2, h3⟩

/-! ## Write path -/

theorem trim_count_eq (original_length copy_length : Nat) (h1 : copy_length ≤ original_length)
    (h2 : original_length < 2 ^ 64) :
    trim_count original_length copy_length = original_length - copy_length := by
  unfold trim_count
  have h3 : copy_length % 2 ^ 64 = copy_length := Nat.mod_eq_of_lt (by omega)
  rw [h3]
  have h4 : original_length + 2 ^ 64 - copy_length = (original_length - copy_length) + 2 ^ 64 := by
    omega
  rw [h4, Nat.add_mod_right]
  exact Nat.mod_eq_of_lt (by omega)

/-- What s.cpp 338 does when `appended` was added to the live buffer after the
snapshot was taken and `t` bytes of the snapshot were sent: it removes
`t + appended.length` bytes from the front, not `t`. -/
theorem trim_live_after_append (snapshot appended : List Byte) (t : Nat)
    (ht : t ≤ snapshot.length) (hsize : (snapshot ++ appended).length < 2 ^ 64) :
    trim_live (snapshot ++ appended) (snapshot.drop t) =
      (snapshot ++ appended).drop (t + appended.length) := by
  unfold trim_live erase_front
  rw [trim_count_eq _ _ (by simp; omega) hsize]
  congr 1
  simp
  omega

/-- Failing input for C3: descriptor 5 has the snapshot `x`; while its Write
task sends that one byte, a Read task on descriptor 6 routes `hello` to
descriptor 5, so the live buffer is `xhello` at completion.  The Write task
then erases all six bytes: `hello` is discarded, where the claim requires the
buffer to be `hello`. -/
theorem handle_write_event_discards_appended_bytes :
    lookup sample_context.clients 5 =
      some { ip := loopback, port := 9000, read_buf := [], write_buf := [120] } ∧
    write_loop [120] [WriteResult.sent 1] = some [] ∧
    lookup (route_message sample_context 6
        (loopback ++ [colon] ++ [57, 48, 48, 48] ++ [colon] ++ [104, 101, 108, 108, 111])).clients 5 =
      some { ip := loopback, port := 9000, read_buf := [],
             write_buf := [120] ++ [104, 101, 108, 108, 111] } ∧
    lookup (handle_write_event sample_context 5 [WriteResult.sent 1]
        (fun c => route_message c 6
          (loopback ++ [colon] ++ [57, 48, 48, 48] ++ [colon] ++ [104, 101, 108, 108, 111]))).clients 5 =
      some { ip := loopback, port := 9000, read_buf := [], write_buf := [] } ∧
    List.drop 1 ([120] ++ [104, 101, 108, 108, 111]) = [104, 101, 108, 108, 111] := by
  decide

/-! ## Worker pool -/

/-- Counterexample to C9 as stated: with the stop flag set and one task still
in the queue, a worker takes that task off the queue and executes it. -/
theorem worker_step_executes_after_stop :
    (request_stop { stop_ := false, task_queue_ := [Task.read 7] }).stop_ = true ∧
    (request_stop { stop_ := false, task_queue_ := [Task.read 7] }).task_queue_ = [Task.read 7] ∧
    worker_step (request_stop { stop_ := false, task_queue_ := [Task.read 7] }) =
      WorkerStep.execute (Task.read 7) { stop_ := true, task_queue_ := [] } := by
  decide

/-- C9, amended: once the stop flag has been set, a worker returns only when
the queue is empty; every task still sitting in the queue is taken off the
queue and executed, in FIFO order, before the worker returns, so the tasks
queued at shutdown are drained, not discarded. -/
theorem worker_loop_drains_after_stop (pool : PoolState) (fuel : Nat)
    (hstop : pool.stop_ = true) (hfuel : pool.task_queue_.length < fuel) :
    worker_loop fuel pool =
      some (pool.task_queue_, { stop_ := true, task_queue_ := [] }, true) := by
  obtain ⟨stop, queue⟩ := pool
  simp only at hstop hfuel
  subst hstop
  induction queue generalizing fuel with
  | nil =>
    obtain ⟨f, rfl⟩ : ∃ f, fuel = f + 1 := ⟨fuel - 1, by simp at hfuel; omega⟩
    simp [worker_loop, worker_step]
  | cons task rest ih =>
    obtain ⟨f, rfl⟩ : ∃ f, fuel = f + 1 := ⟨fuel - 1, by simp at hfuel; omega⟩
    have hf : rest.length < f := by simp at hfuel; omega
    simp [worker_loop, worker_step, ih f hf]

/-- Witness for C9, amended: with the stop flag set and two tasks queued, the
worker executes both, in order, and then returns. -/
theorem worker_loop_drains_after_stop_witness :
    worker_loop 3 { stop_ := true, task_queue_ := [Task.read 7, Task.write 8] } =
      some ([Task.read 7, Task.write 8], { stop_ := true, task_queue_ := [] }, true) :=
  worker_loop_drains_after_stop { stop_ := true, task_queue_ := [Task.read 7, Task.write 8] } 3
    rfl (by decide)

/-! ## Frame normalisation -/

theorem without_trailing_cr_append (init : List Byte) (b : Byte) :
    without_trailing_cr (init ++ [b]) = if b = carriage_return then init else init ++ [b] := by
  simp [without_trailing_cr]

theorem strip_carriage_return_append (init : List Byte) (b : Byte) :
    strip_carriage_return (init ++ [b]) = if b = carriage_return then init else init ++ [b] := by
  by_cases hb : b = carriage_return <;> simp [strip_carriage_return, hb]

theorem ends_split (line : List Byte) : line = [] ∨ ∃ init b, line = init ++ [b] := by
  rcases List.eq_nil_or_concat line with h | ⟨init, b, h⟩
  · exact Or.inl h
  · exact Or.inr ⟨init, b, by simpa using h⟩

theorem strip_carriage_return_eq (line : List Byte) :
    strip_carriage_return line = without_trailing_cr line := by
  rcases ends_split line with rfl | ⟨init, b, rfl⟩
  · rfl
  · rw [strip_carriage_return_append, without_trailing_cr_append]

theorem without_trailing_cr_eq_nil (line : List Byte) :
    without_trailing_cr line = [] ↔ line = [] ∨ line = [carriage_return] := by
  rcases ends_split line with rfl | ⟨init, b, rfl⟩
  · simp [without_trailing_cr]
  · rw [without_trailing_cr_append]
    by_cases hb : b = carriage_return
    · subst hb
      simp
    · rw [if_neg hb]
      constructor
      · intro h
        simp at h
      · intro h
        rcases h with h | h
        · simp at h
        · have h2 := congrArg List.getLast? h
          simp at h2
          exact absurd h2 hb

/-- C11: when the loop of `handle_read_event` cuts a line `L` (no newline in
it) off the front of the read buffer of `fd`, the frame it goes on with is
`L` without one trailing carriage return (`L` itself when it does not end in
one).  That frame is empty exactly when `L` is empty or a single carriage
return, and then the line is skipped: the loop continues from the table in
which only the read buffer of `fd` has lost the line.  Otherwise that frame is
what is parsed and routed.  Cutting the line off changes no `write_buf`. -/
theorem frame_loop_normalises_line (context : ServerContext) (fd : Int) (client : ClientInfo)
    (fuel : Nat) (line rest : List Byte)
    (hl : lookup context.clients fd = some client)
    (hb : client.read_buf = line ++ newline :: rest) (hn : newline ∉ line) :
    (without_trailing_cr line = [] ↔ line = [] ∨ line = [carriage_return]) ∧
    (without_trailing_cr line = [] →
      frame_loop (fuel + 1) context fd =
        (frame_loop fuel
          { context with clients := update context.clients fd (set_read_buf rest) } fd).map
          (fun r => (r.1, line :: r.2))) ∧
    (without_trailing_cr line ≠ [] →
      frame_loop (fuel + 1) context fd =
        (frame_loop fuel
          (route_message
            { context with clients := update context.clients fd (set_read_buf rest) } fd
            (without_trailing_cr line)) fd).map
          (fun r => (r.1, line :: r.2))) ∧
    (∀ other,
      (lookup (update context.clients fd (set_read_buf rest)) other).map (fun c => c.write_buf) =
        (lookup context.clients other).map (fun c => c.write_buf)) := by
  refine ⟨without_trailing_cr_eq_nil line, fun he => ?_, fun hne => ?_, fun other => ?_⟩
  · rw [frame_loop_step context fd client fuel line rest hl hb hn]
    simp [process_line, strip_carriage_return_eq, he]
  · rw [frame_loop_step context fd client fuel line rest hl hb hn]
    simp [process_line, strip_carriage_return_eq, hne]
  · by_cases ho : other = fd
    · subst ho
      rw [lookup_update_self, hl]
      rfl
    · rw [lookup_update_other _ fd other _ ho]

/-- Witness for C11: descriptor 6 has `\r`, `\n`, `a` in its read buffer; the
line `\r` is skipped, no write buffer changes, and `a` stays in the read
buffer. -/
theorem frame_loop_normalises_line_witness :
    without_trailing_cr [carriage_return] = [] ∧
    frame_loop (1 + 1) sample_context_with_input 6 =
      (frame_loop 1
        { sample_context_with_input with
          clients := update sample_context_with_input.clients 6 (set_read_buf [97]) } 6).map
        (fun r => (r.1, [carriage_return] :: r.2)) ∧
    frame_loop (1 + 1) sample_context_with_input 6 =
      some ({ epoll_fd := 3,
              clients :=
                [(5, { ip := loopback, port := 9000, read_buf := [], write_buf := [120] }),
                 (6, { ip := loopback, port := 9001, read_buf := [97], write_buf := [] })] },
            [[carriage_return]]) :=
  ⟨by decide,
   (frame_loop_normalises_line sample_context_with_input 6
      { ip := loopback, port := 9001, read_buf := [13, 10, 97], write_buf := [] } 1
      [carriage_return] [97] (by decide) (by decide) (by decide)).2.1 (by decide),
   by decide⟩

/-! ## Deferred disconnection -/

theorem store_chunk_nil (context : ServerContext) (fd : Int) :
    store_chunk context fd [] = context := by
  cases hc : count context.clients fd with
  | false => exact store_chunk_absent context fd [] hc
  | true =>
    obtain ⟨client, hl⟩ := lookup_of_count _ fd hc
    rw [store_chunk_of_lookup context fd client [] hl,
      update_same _ fd _ (fun c _ => by simp [append_read])]

theorem drain_data (context : ServerContext) (fd : Int) (data : List (List Byte))
    (tail : List ReadResult) (hdata : ∀ chunk ∈ data, chunk ≠ []) :
    drain context fd (data.map ReadResult.bytes ++ tail) =
      drain (store_chunk context fd data.flatten) fd tail := by
  induction data generalizing context with
  | nil => simp [store_chunk_nil]
  | cons chunk rest ih =>
    have hpos : chunk.length > 0 := List.length_pos.mpr (hdata chunk (by simp))
    have e : drain context fd (ReadResult.bytes chunk :: (rest.map ReadResult.bytes ++ tail)) =
        drain (store_chunk context fd chunk) fd (rest.map ReadResult.bytes ++ tail) := by
      simp [drain, hpos]
    rw [List.map_cons, List.cons_append, e, ih _ (fun c hc => hdata c (by simp [hc])),
      store_chunk_append, List.flatten_cons]

/-- C12: a Read task on `S` whose reads return the non-empty chunks `data` and
then a zero-length read or a hard error extracts and routes every complete
line of the previous read buffer followed by `data` exactly as the task would
after a would-block (same lines, same table `c`), and only then removes the
entry of `S`: its result is `disconnect_client` applied to `c`, so every other
connection ends as in `c`. -/
theorem handle_read_event_defers_disconnect (context : ServerContext) (S : Int)
    (data : List (List Byte)) (terminal : ReadResult)
    (hdata : ∀ chunk ∈ data, chunk ≠ [])
    (hterm : terminal = ReadResult.bytes [] ∨ terminal = ReadResult.failure) :
    ∃ c lines,
      feed context S data.flatten = some (c, lines) ∧
      handle_read_event context S (data.map ReadResult.bytes ++ [ReadResult.would_block]) =
        some (c, lines) ∧
      handle_read_event context S (data.map ReadResult.bytes ++ [terminal]) =
        some (disconnect_client c S, lines) ∧
      lookup (disconnect_client c S).clients S = none ∧
      ∀ other, other ≠ S →
        lookup (disconnect_client c S).clients other = lookup c.clients other := by
  obtain ⟨r, hr⟩ := process_frames_total (store_chunk context S data.flatten) S
  refine ⟨r.1, r.2, hr, ?_, ?_, lookup_disconnect_self r.1 S,
    fun other h => lookup_disconnect_other r.1 S other h⟩
  · simp [handle_read_event, drain_data context S data _ hdata, drain, hr]
  · rcases hterm with rfl | rfl <;>
      simp [handle_read_event, drain_data context S data _ hdata, drain, hr]

/-- Witness for C12: descriptor 6 reads `127.0.0.1:9000:hello\n` and then a
zero-length read; `hello` is still delivered to descriptor 5, and afterwards
the entry of descriptor 6 is gone. -/
theorem handle_read_event_defers_disconnect_witness :
    handle_read_event sample_context 6
        [ReadResult.bytes (loopback ++ [colon] ++ [57, 48, 48, 48] ++ [colon] ++
            [104, 101, 108, 108, 111] ++ [newline]),
         ReadResult.bytes []] =
      some ({ epoll_fd := 3,
              clients :=
                [(5, { ip := loopback, port := 9000, read_buf := [],
                       write_buf := [120, 104, 101, 108, 108, 111] })] },
            [loopback ++ [colon] ++ [57, 48, 48, 48] ++ [colon] ++ [104, 101, 108, 108, 111]]) := by
  obtain ⟨c, lines, _, h2, h3, _, _⟩ :=
    handle_read_event_defers_disconnect sample_context 6
      [loopback ++ [colon] ++ [57, 48, 48, 48] ++ [colon] ++ [104, 101, 108, 108, 111] ++ [newline]]
      (ReadResult.bytes []) (by decide) (Or.inl rfl)
  have h2c : handle_read_event sample_context 6
      (List.map ReadResult.bytes
        [loopback ++ [colon] ++ [57, 48, 48, 48] ++ [colon] ++ [104, 101, 108, 108, 111] ++
          [newline]] ++ [ReadResult.would_block]) =
      some ({ epoll_fd := 3,
              clients :=
                [(5, { ip := loopback, port := 9000, read_buf := [],
                       write_buf := [120, 104, 101, 108, 108, 111] }),
                 (6, { ip := loopback, port := 9001, read_buf := [], write_buf := [] })] },
            [loopback ++ [colon] ++ [57, 48, 48, 48] ++ [colon] ++ [104, 101, 108, 108, 111]]) := by
    decide
  rw [h2c] at h2
  simp only [Option.some.injEq, Prod.mk.injEq] at h2
  obtain ⟨hc, hlines⟩ := h2
  subst hc
  subst hlines
  exact h3

end TcpChat
